import Mathlib

/-!
Formal model of the wallet database layer of `src/wallet/walletdb.h`:
the versioned record codecs for `CHDChain` and `CKeyMetadata`, the
update-counter write/erase path of `WalletBatch` (`WriteIC` / `EraseIC`),
and spec-level models of the load / zap / recover pipeline whose
implementations are only declared in the header.

Byte streams are `List Nat`, one element per octet.  Machine integers are
`Nat` (unsigned) or `Int` (signed, two's-complement at the serialized
width), with explicit bounds carried by validity predicates.
-/

/-- Little-endian fixed-width encoder: `w` octets of `n` (low byte first),
mirroring the `ser_writedata32` / `ser_writedata64` primitives of the
serialization framework. -/
def toBytesLE : Nat → Nat → List Nat
  | 0, _ => []
  | w + 1, n => n % 256 :: toBytesLE w (n / 256)

/-- Little-endian fixed-width decoder, inverse to `toBytesLE`. -/
def fromBytesLE : List Nat → Nat
  | [] => 0
  | b :: bs => b + 256 * fromBytesLE bs

/-- Read exactly `k` raw octets from the front of a stream; fails when the
stream is shorter than `k`, so decoding never reads past the stream. -/
def readBytesN (k : Nat) (s : List Nat) : Option (List Nat × List Nat) :=
  if k ≤ s.length then some (s.take k, s.drop k) else none

/-- Read a `w`-octet little-endian unsigned integer. -/
def readLE (w : Nat) (s : List Nat) : Option (Nat × List Nat) :=
  match readBytesN w s with
  | none => none
  | some (b, r) => some (fromBytesLE b, r)

/-- Two's-complement image of a signed 32-bit value in `[0, 2^32)`,
mirroring how a C++ `int` is serialized as its unsigned bit pattern. -/
def intToUInt32 (v : Int) : Nat := (v % ((2 : Int) ^ 32)).toNat

/-- Reinterpret an unsigned 32-bit value as a signed C++ `int`. -/
def uint32ToInt (n : Nat) : Int :=
  if n < 2 ^ 31 then (n : Int) else (n : Int) - 2 ^ 32

/-- Serialize a C++ `int` (4 octets, little endian, two's complement). -/
def encInt32 (v : Int) : List Nat := toBytesLE 4 (intToUInt32 v)

/-- Deserialize a C++ `int`. -/
def readInt32 (s : List Nat) : Option (Int × List Nat) :=
  (readLE 4 s).map (fun p => (uint32ToInt p.1, p.2))

/-- Two's-complement image of a signed 64-bit value in `[0, 2^64)`. -/
def intToUInt64 (v : Int) : Nat := (v % ((2 : Int) ^ 64)).toNat

/-- Reinterpret an unsigned 64-bit value as a signed `int64_t`. -/
def uint64ToInt (n : Nat) : Int :=
  if n < 2 ^ 63 then (n : Int) else (n : Int) - 2 ^ 64

/-- Serialize an `int64_t` (8 octets, little endian, two's complement). -/
def encInt64 (v : Int) : List Nat := toBytesLE 8 (intToUInt64 v)

/-- Deserialize an `int64_t`. -/
def readInt64 (s : List Nat) : Option (Int × List Nat) :=
  (readLE 8 s).map (fun p => (uint64ToInt p.1, p.2))

/-- Bitcoin variable-length `CompactSize` encoder (for vector and string
lengths): one octet below 253, otherwise a marker octet followed by a 2-,
4- or 8-octet little-endian value. -/
def encCompactSize (n : Nat) : List Nat :=
  if n < 253 then [n]
  else if n < 2 ^ 16 then 253 :: toBytesLE 2 n
  else if n < 2 ^ 32 then 254 :: toBytesLE 4 n
  else 255 :: toBytesLE 8 n

/-- `CompactSize` decoder. -/
def readCompactSize (s : List Nat) : Option (Nat × List Nat) :=
  match s with
  | [] => none
  | b :: r =>
    if b < 253 then some (b, r)
    else if b = 253 then readLE 2 r
    else if b = 254 then readLE 4 r
    else readLE 8 r

/-- Serialize a `std::string` (`CompactSize` length prefix, then the raw
octets), as the serialization framework does for `hdKeypath`. -/
def encString (str : List Nat) : List Nat := encCompactSize str.length ++ str

/-- Deserialize a `std::string`. -/
def readString (s : List Nat) : Option (List Nat × List Nat) :=
  match readCompactSize s with
  | none => none
  | some (n, r) => readBytesN n r

/-- Serialize a `std::vector<uint32_t>` body (each element as 4 octets,
little endian), as used for a BIP32 derivation path. -/
def encU32Body : List Nat → List Nat
  | [] => []
  | x :: xs => toBytesLE 4 x ++ encU32Body xs

/-- Deserialize `k` consecutive 32-bit values. -/
def readU32Body : Nat → List Nat → Option (List Nat × List Nat)
  | 0, s => some ([], s)
  | k + 1, s =>
    match readLE 4 s with
    | none => none
    | some (x, r) =>
      match readU32Body k r with
      | none => none
      | some (xs, r2) => some (x :: xs, r2)

/-- Serialize a `std::vector<uint32_t>` (`CompactSize` count, then the
elements). -/
def encU32Vector (l : List Nat) : List Nat :=
  encCompactSize l.length ++ encU32Body l

/-- Deserialize a `std::vector<uint32_t>`. -/
def readU32Vector (s : List Nat) : Option (List Nat × List Nat) :=
  match readCompactSize s with
  | none => none
  | some (n, r) => readU32Body n r

/-- Serialize a `bool` as one octet. -/
def encBool (b : Bool) : List Nat := [if b then 1 else 0]

/-- Deserialize a `bool` (any nonzero octet reads as `true`). -/
def readBool (s : List Nat) : Option (Bool × List Nat) :=
  match s with
  | [] => none
  | b :: r => some (decide (b ≠ 0), r)

/-- Null `uint160` (a `CKeyID` after `SetNull`): twenty zero octets. -/
def nullKeyID : List Nat := List.replicate 20 0

/-- Octet string of length `k`: every element is a byte value. -/
def IsBytes (k : Nat) (l : List Nat) : Prop :=
  l.length = k ∧ ∀ b ∈ l, b < 256

instance (k : Nat) (l : List Nat) : Decidable (IsBytes k l) := by
  unfold IsBytes
  infer_instance

/-- Simple HD chain data model (`class CHDChain` of `walletdb.h`). -/
structure CHDChain where
  nExternalChainCounter : Nat
  nInternalChainCounter : Nat
  seed_id : List Nat
  nVersion : Int
deriving Repr, DecidableEq

/-- `CHDChain::VERSION_HD_BASE`. -/
def CHDChain.VERSION_HD_BASE : Int := 1

/-- `CHDChain::VERSION_HD_CHAIN_SPLIT`. -/
def CHDChain.VERSION_HD_CHAIN_SPLIT : Int := 2

/-- `CHDChain::CURRENT_VERSION`. -/
def CHDChain.CURRENT_VERSION : Int := CHDChain.VERSION_HD_CHAIN_SPLIT

/-- The value established by `CHDChain::SetNull`, which is also what the
default constructor `CHDChain()` produces. -/
def CHDChain.SetNull : CHDChain :=
  { nExternalChainCounter := 0
    nInternalChainCounter := 0
    seed_id := nullKeyID
    nVersion := CHDChain.CURRENT_VERSION }

/-- Write path of `CHDChain::SerializationOp`: version, external counter,
seed id, then the internal counter only when
`nVersion ≥ VERSION_HD_CHAIN_SPLIT`. -/
def CHDChain.serialize (c : CHDChain) : List Nat :=
  encInt32 c.nVersion ++ toBytesLE 4 c.nExternalChainCounter ++ c.seed_id ++
    (if CHDChain.VERSION_HD_CHAIN_SPLIT ≤ c.nVersion then
      toBytesLE 4 c.nInternalChainCounter
    else [])

/-- Read path of `CHDChain::SerializationOp`: the stream is decoded into a
default-constructed record (`CHDChain()` calls `SetNull`), and the internal
counter is read only when the version just read from the stream is at least
`VERSION_HD_CHAIN_SPLIT`. -/
def CHDChain.deserialize (s : List Nat) : Option (CHDChain × List Nat) :=
  (readInt32 s).bind (fun p =>
    (readLE 4 p.2).bind (fun q =>
      (readBytesN 20 q.2).bind (fun r =>
        let c : CHDChain :=
          { CHDChain.SetNull with
              nVersion := p.1
              nExternalChainCounter := q.1
              seed_id := r.1 }
        if CHDChain.VERSION_HD_CHAIN_SPLIT ≤ p.1 then
          (readLE 4 r.2).map
            (fun w => ({ c with nInternalChainCounter := w.1 }, w.2))
        else some (c, r.2))))

/-- Machine-level representability of a `CHDChain` value: counters fit in
32 bits, the seed id is a 160-bit hash, the version fits in a C++ `int`. -/
def CHDChain.Valid (c : CHDChain) : Prop :=
  c.nExternalChainCounter < 2 ^ 32 ∧ c.nInternalChainCounter < 2 ^ 32 ∧
    IsBytes 20 c.seed_id ∧ -(2 ^ 31) ≤ c.nVersion ∧ c.nVersion < 2 ^ 31

instance (c : CHDChain) : Decidable c.Valid := by
  unfold CHDChain.Valid
  infer_instance

/-- A record is exactly representable at its own schema version: the field
gated behind `VERSION_HD_CHAIN_SPLIT` is at its default when the version
predates the split. -/
def CHDChain.MatchesVersion (c : CHDChain) : Prop :=
  c.nVersion < CHDChain.VERSION_HD_CHAIN_SPLIT → c.nInternalChainCounter = 0

instance (c : CHDChain) : Decidable c.MatchesVersion := by
  unfold CHDChain.MatchesVersion
  infer_instance

/-- Modelled from the spec: the key-origin descriptor attached to key
metadata, "derivation path + master fingerprint" (§3); its C++ definition
(`KeyOriginInfo`) is declared outside this header.  The fingerprint is four
raw octets and the path a sequence of 32-bit child indices. -/
structure KeyOriginInfo where
  fingerprint : List Nat
  path : List Nat
deriving Repr, DecidableEq

/-- Modelled from the spec: `KeyOriginInfo::clear()` — the cleared
key-origin descriptor (zero fingerprint, empty path), the default the
codec leaves when the origin group is absent. -/
def KeyOriginInfo.clear : KeyOriginInfo :=
  { fingerprint := List.replicate 4 0, path := [] }

/-- Modelled from the spec: serialization of a key-origin descriptor —
the four fingerprint octets verbatim, then the path as a vector of
32-bit values. -/
def KeyOriginInfo.serialize (k : KeyOriginInfo) : List Nat :=
  k.fingerprint ++ encU32Vector k.path

/-- Modelled from the spec: deserialization of a key-origin descriptor. -/
def KeyOriginInfo.deserialize (s : List Nat) :
    Option (KeyOriginInfo × List Nat) :=
  (readBytesN 4 s).bind (fun fp =>
    (readU32Vector fp.2).map (fun p =>
      ({ fingerprint := fp.1, path := p.1 }, p.2)))

/-- Machine-level representability of a key-origin descriptor. -/
def KeyOriginInfo.Valid (k : KeyOriginInfo) : Prop :=
  IsBytes 4 k.fingerprint ∧ k.path.length < 2 ^ 64 ∧ ∀ x ∈ k.path, x < 2 ^ 32

instance (k : KeyOriginInfo) : Decidable k.Valid := by
  unfold KeyOriginInfo.Valid
  infer_instance

/-- Key metadata data model (`class CKeyMetadata` of `walletdb.h`). -/
structure CKeyMetadata where
  nVersion : Int
  nCreateTime : Int
  hdKeypath : List Nat
  hd_seed_id : List Nat
  key_origin : KeyOriginInfo
  has_key_origin : Bool
deriving Repr, DecidableEq

/-- `CKeyMetadata::VERSION_BASIC`. -/
def CKeyMetadata.VERSION_BASIC : Int := 1

/-- `CKeyMetadata::VERSION_WITH_HDDATA`. -/
def CKeyMetadata.VERSION_WITH_HDDATA : Int := 10

/-- `CKeyMetadata::VERSION_WITH_KEY_ORIGIN`. -/
def CKeyMetadata.VERSION_WITH_KEY_ORIGIN : Int := 12

/-- `CKeyMetadata::CURRENT_VERSION`. -/
def CKeyMetadata.CURRENT_VERSION : Int := CKeyMetadata.VERSION_WITH_KEY_ORIGIN

/-- The value established by `CKeyMetadata::SetNull`, which is also what
the default constructor `CKeyMetadata()` produces. -/
def CKeyMetadata.SetNull : CKeyMetadata :=
  { nVersion := CKeyMetadata.CURRENT_VERSION
    nCreateTime := 0
    hdKeypath := []
    hd_seed_id := nullKeyID
    key_origin := KeyOriginInfo.clear
    has_key_origin := false }

/-- The constructor `CKeyMetadata(int64_t nCreateTime_)`: `SetNull` then
the creation time. -/
def CKeyMetadata.ofCreateTime (t : Int) : CKeyMetadata :=
  { CKeyMetadata.SetNull with nCreateTime := t }

/-- Write path of `CKeyMetadata::SerializationOp`: version and creation
time always; HD keypath and seed id only when
`nVersion ≥ VERSION_WITH_HDDATA`; key origin and its flag only when
`nVersion ≥ VERSION_WITH_KEY_ORIGIN`. -/
def CKeyMetadata.serialize (m : CKeyMetadata) : List Nat :=
  encInt32 m.nVersion ++ encInt64 m.nCreateTime ++
    (if CKeyMetadata.VERSION_WITH_HDDATA ≤ m.nVersion then
      encString m.hdKeypath ++ m.hd_seed_id
    else []) ++
    (if CKeyMetadata.VERSION_WITH_KEY_ORIGIN ≤ m.nVersion then
      m.key_origin.serialize ++ encBool m.has_key_origin
    else [])

/-- Read path of `CKeyMetadata::SerializationOp`: the stream is decoded
into a default-constructed record (`CKeyMetadata()` calls `SetNull`); each
optional group is read only when the version just read from the stream
reaches that group's introduction version. -/
def CKeyMetadata.deserialize (s : List Nat) :
    Option (CKeyMetadata × List Nat) :=
  (readInt32 s).bind (fun p =>
    (readInt64 p.2).bind (fun q =>
      let m0 : CKeyMetadata :=
        { CKeyMetadata.SetNull with nVersion := p.1, nCreateTime := q.1 }
      (if CKeyMetadata.VERSION_WITH_HDDATA ≤ p.1 then
        (readString q.2).bind (fun kp =>
          (readBytesN 20 kp.2).map (fun sid =>
            ({ m0 with hdKeypath := kp.1, hd_seed_id := sid.1 }, sid.2)))
      else some (m0, q.2)).bind (fun mr =>
        if CKeyMetadata.VERSION_WITH_KEY_ORIGIN ≤ p.1 then
          (KeyOriginInfo.deserialize mr.2).bind (fun ko =>
            (readBool ko.2).map (fun hk =>
              ({ mr.1 with key_origin := ko.1, has_key_origin := hk.1 },
                hk.2)))
        else some mr)))

/-- Machine-level representability of a `CKeyMetadata` value. -/
def CKeyMetadata.Valid (m : CKeyMetadata) : Prop :=
  (-(2 ^ 31) ≤ m.nVersion ∧ m.nVersion < 2 ^ 31) ∧
    (-(2 ^ 63) ≤ m.nCreateTime ∧ m.nCreateTime < 2 ^ 63) ∧
    (m.hdKeypath.length < 2 ^ 64 ∧ ∀ b ∈ m.hdKeypath, b < 256) ∧
    IsBytes 20 m.hd_seed_id ∧ m.key_origin.Valid

instance (m : CKeyMetadata) : Decidable m.Valid := by
  unfold CKeyMetadata.Valid
  infer_instance

/-- A record is exactly representable at its own schema version: every
field gated behind an introduction version the record predates is at its
`SetNull` default. -/
def CKeyMetadata.MatchesVersion (m : CKeyMetadata) : Prop :=
  (m.nVersion < CKeyMetadata.VERSION_WITH_HDDATA →
    m.hdKeypath = [] ∧ m.hd_seed_id = nullKeyID) ∧
  (m.nVersion < CKeyMetadata.VERSION_WITH_KEY_ORIGIN →
    m.key_origin = KeyOriginInfo.clear ∧ m.has_key_origin = false)

instance (m : CKeyMetadata) : Decidable m.MatchesVersion := by
  unfold CKeyMetadata.MatchesVersion
  infer_instance

/-- Error statuses for the wallet database (`enum class DBErrors` of
`walletdb.h`). -/
inductive DBErrors where
  | LOAD_OK
  | CORRUPT
  | NONCRITICAL_ERROR
  | TOO_NEW
  | LOAD_FAIL
  | NEED_REWRITE
deriving Repr, DecidableEq

/-- Modelled from the spec: the load pipeline classifies a record whose
version field exceeds the reader's newest known schema version
(`CKeyMetadata::CURRENT_VERSION`) as the too-new condition
(`DBErrors::TOO_NEW`); the classifying scan (`WalletBatch::LoadWallet`)
is only declared in the header. -/
def classifyMetadataVersion (v : Int) : DBErrors :=
  if CKeyMetadata.CURRENT_VERSION < v then DBErrors.TOO_NEW
  else DBErrors.LOAD_OK

/-- Store-wide mutable state seen by `WalletBatch`: the database's
`nUpdateCounter` and the number of `m_batch.Flush()` calls issued so far
(the latter added to observe the flush cadence). -/
structure WalletStore where
  nUpdateCounter : Nat
  nFlushCount : Nat
deriving Repr, DecidableEq

/-- A freshly opened store: zero update counter, no flushes yet. -/
def WalletStore.init : WalletStore :=
  { nUpdateCounter := 0, nFlushCount := 0 }

/-- `WalletBatch::WriteIC`: if the engine write (`m_batch.Write`, whose
outcome is the `engineWriteOk` argument) fails, return `false` with the
store untouched; otherwise increment the store-wide update counter and
flush iff the incremented counter is a multiple of 1000. -/
def WriteIC (engineWriteOk : Bool) (st : WalletStore) : Bool × WalletStore :=
  if !engineWriteOk then (false, st)
  else
    let st1 : WalletStore := { st with nUpdateCounter := st.nUpdateCounter + 1 }
    if st1.nUpdateCounter % 1000 = 0 then
      (true, { st1 with nFlushCount := st1.nFlushCount + 1 })
    else (true, st1)

/-- `WalletBatch::EraseIC`: identical counter-and-flush discipline over
the engine erase (`m_batch.Erase`). -/
def EraseIC (engineEraseOk : Bool) (st : WalletStore) : Bool × WalletStore :=
  if !engineEraseOk then (false, st)
  else
    let st1 : WalletStore := { st with nUpdateCounter := st.nUpdateCounter + 1 }
    if st1.nUpdateCounter % 1000 = 0 then
      (true, { st1 with nFlushCount := st1.nFlushCount + 1 })
    else (true, st1)

/-- Run a sequence of successful operations against one store; each list
element says whether the operation is a write (`true`) or an erase
(`false`), so mixed sequences through any batches sharing the store are
covered. -/
def runICOps : List Bool → WalletStore → WalletStore
  | [], st => st
  | op :: rest, st =>
    runICOps rest (if op then (WriteIC true st).2 else (EraseIC true st).2)

/-- Modelled from the spec: the explicit total severity ordering over the
six classifications the spec requires the implementer to fix (success
least, unrecoverable load failure greatest); `WalletBatch::LoadWallet` is
only declared in the header. -/
def severityRank : DBErrors → Nat
  | DBErrors.LOAD_OK => 0
  | DBErrors.NONCRITICAL_ERROR => 1
  | DBErrors.TOO_NEW => 2
  | DBErrors.NEED_REWRITE => 3
  | DBErrors.CORRUPT => 4
  | DBErrors.LOAD_FAIL => 5

/-- Modelled from the spec: combine two classifications, keeping the more
severe one. -/
def combineDBErrors (a b : DBErrors) : DBErrors :=
  if severityRank a < severityRank b then b else a

/-- Modelled from the spec: the aggregation skeleton of
`WalletBatch::LoadWallet` — scan records in order, classify each, stop
immediately (only) on unrecoverable load failure, otherwise keep scanning
and keep the most severe classification.  The input is the per-record
classification sequence; the result is the overall classification and the
number of records processed. -/
def LoadWalletScan : List DBErrors → DBErrors × Nat
  | [] => (DBErrors.LOAD_OK, 0)
  | e :: rest =>
    if e = DBErrors.LOAD_FAIL then (DBErrors.LOAD_FAIL, 1)
    else
      (combineDBErrors e (LoadWalletScan rest).1, (LoadWalletScan rest).2 + 1)

/-- Modelled from the spec: `WalletBatch::ZapSelectTx`, only declared in
the header — the store is abstracted to the list of transaction ids it
holds; for each requested id in order, a present id is erased from the
store and reported removed, an absent id is reported not found.  Returns
(remaining store, removed ids, not-found ids). -/
def ZapSelectTx : List Nat → List Nat → List Nat × List Nat × List Nat
  | store, [] => (store, [], [])
  | store, r :: rs =>
    if r ∈ store then
      ((ZapSelectTx (store.filter (fun t => t != r)) rs).1,
        r :: (ZapSelectTx (store.filter (fun t => t != r)) rs).2.1,
        (ZapSelectTx (store.filter (fun t => t != r)) rs).2.2)
    else
      ((ZapSelectTx store rs).1,
        (ZapSelectTx store rs).2.1,
        r :: (ZapSelectTx store rs).2.2)

/-- Modelled from the spec: a raw record seen by the recovery engine — the
type tag leading the key, the remaining key octets, and the value octets
(§3 Generic Record). -/
structure RawRecord where
  strType : String
  keyBytes : List Nat
  valueBytes : List Nat
deriving Repr, DecidableEq

/-- Modelled from the spec: `WalletBatch::IsKeyType`, only declared in the
header — the pure classification of a type tag as a cryptographic-key tag
(plain, wallet, master and encrypted key records, §3/§6). -/
def IsKeyType (strType : String) : Bool :=
  strType == "key" || strType == "wkey" || strType == "mkey" ||
    strType == "ckey"

/-- Modelled from the spec: `WalletBatch::RecoverKeysOnlyFilter`, only
declared in the header — keep a raw record iff its type tag is a
cryptographic-key tag. -/
def RecoverKeysOnlyFilter (r : RawRecord) : Bool := IsKeyType r.strType

/-- Modelled from the spec: the salvage pass of `WalletBatch::Recover`,
only declared in the header — iterate the raw records in order and write
each pair the filter accepts, verbatim, into the backup. -/
def Recover (filter : RawRecord → Bool) : List RawRecord → List RawRecord
  | [] => []
  | r :: rest =>
    if filter r then r :: Recover filter rest else Recover filter rest

theorem length_toBytesLE (w n : Nat) : (toBytesLE w n).length = w := by
  induction w generalizing n with
  | zero => rfl
  | succ w ih => simp [toBytesLE, ih]

theorem fromBytesLE_toBytesLE (w n : Nat) (h : n < 256 ^ w) :
    fromBytesLE (toBytesLE w n) = n := by
  induction w generalizing n with
  | zero =>
    simp only [pow_zero, Nat.lt_one_iff] at h
    simp [toBytesLE, fromBytesLE, h]
  | succ w ih =>
    have hdiv : n / 256 < 256 ^ w := by
      rw [Nat.div_lt_iff_lt_mul (by norm_num)]
      calc n < 256 ^ (w + 1) := h
        _ = 256 ^ w * 256 := by ring
    simp only [toBytesLE, fromBytesLE, ih _ hdiv]
    omega

theorem readBytesN_append (l rest : List Nat) :
    readBytesN l.length (l ++ rest) = some (l, rest) := by
  simp [readBytesN, List.take_left, List.drop_left]

theorem readBytesN_append_of_length (k : Nat) (l rest : List Nat)
    (h : l.length = k) : readBytesN k (l ++ rest) = some (l, rest) := by
  subst h
  exact readBytesN_append l rest

theorem readLE_toBytesLE (w n : Nat) (rest : List Nat) (h : n < 256 ^ w) :
    readLE w (toBytesLE w n ++ rest) = some (n, rest) := by
  unfold readLE
  rw [readBytesN_append_of_length w _ rest (length_toBytesLE w n)]
  simp [fromBytesLE_toBytesLE w n h]

theorem length_readLE (w : Nat) (s : List Nat) (n : Nat) (rest : List Nat)
    (h : readLE w s = some (n, rest)) : rest.length + w = s.length := by
  unfold readLE readBytesN at h
  by_cases hw : w ≤ s.length
  · simp only [hw, if_pos] at h
    cases h
    simp [List.length_drop]
    omega
  · simp [hw] at h

theorem intToUInt32_lt (v : Int) : intToUInt32 v < 2 ^ 32 := by
  unfold intToUInt32
  have h1 : v % ((2 : Int) ^ 32) < (2 : Int) ^ 32 :=
    Int.emod_lt_of_pos v (by norm_num)
  have h2 : (0 : Int) ≤ v % ((2 : Int) ^ 32) := Int.emod_nonneg v (by norm_num)
  omega

theorem uint32ToInt_intToUInt32 (v : Int)
    (h1 : -(2 ^ 31) ≤ v) (h2 : v < 2 ^ 31) :
    uint32ToInt (intToUInt32 v) = v := by
  unfold uint32ToInt intToUInt32
  have e : ((2 : Int) ^ 32) = 4294967296 := by norm_num
  rw [e]
  norm_num at h1 h2 ⊢
  split <;> omega

theorem readInt32_encInt32 (v : Int) (rest : List Nat)
    (h1 : -(2 ^ 31) ≤ v) (h2 : v < 2 ^ 31) :
    readInt32 (encInt32 v ++ rest) = some (v, rest) := by
  unfold readInt32 encInt32
  rw [readLE_toBytesLE 4 _ rest
    (by have h := intToUInt32_lt v; norm_num at h ⊢; omega)]
  simp [uint32ToInt_intToUInt32 v h1 h2]

theorem intToUInt64_lt (v : Int) : intToUInt64 v < 2 ^ 64 := by
  unfold intToUInt64
  have h1 : v % ((2 : Int) ^ 64) < (2 : Int) ^ 64 :=
    Int.emod_lt_of_pos v (by norm_num)
  have h2 : (0 : Int) ≤ v % ((2 : Int) ^ 64) := Int.emod_nonneg v (by norm_num)
  omega

theorem uint64ToInt_intToUInt64 (v : Int)
    (h1 : -(2 ^ 63) ≤ v) (h2 : v < 2 ^ 63) :
    uint64ToInt (intToUInt64 v) = v := by
  unfold uint64ToInt intToUInt64
  have e : ((2 : Int) ^ 64) = 18446744073709551616 := by norm_num
  rw [e]
  norm_num at h1 h2 ⊢
  split <;> omega

theorem readInt64_encInt64 (v : Int) (rest : List Nat)
    (h1 : -(2 ^ 63) ≤ v) (h2 : v < 2 ^ 63) :
    readInt64 (encInt64 v ++ rest) = some (v, rest) := by
  unfold readInt64 encInt64
  rw [readLE_toBytesLE 8 _ rest
    (by have h := intToUInt64_lt v; norm_num at h ⊢; omega)]
  simp [uint64ToInt_intToUInt64 v h1 h2]

theorem readCompactSize_encCompactSize (n : Nat) (rest : List Nat)
    (h : n < 2 ^ 64) :
    readCompactSize (encCompactSize n ++ rest) = some (n, rest) := by
  by_cases h1 : n < 253
  · simp [encCompactSize, readCompactSize, h1]
  · by_cases h2 : n < 2 ^ 16
    · rw [encCompactSize, if_neg h1, if_pos h2]
      simp only [List.cons_append, readCompactSize]
      norm_num
      exact readLE_toBytesLE 2 n rest (by norm_num at h2 ⊢; omega)
    · by_cases h3 : n < 2 ^ 32
      · rw [encCompactSize, if_neg h1, if_neg h2, if_pos h3]
        simp only [List.cons_append, readCompactSize]
        norm_num
        exact readLE_toBytesLE 4 n rest (by norm_num at h3 ⊢; omega)
      · rw [encCompactSize, if_neg h1, if_neg h2, if_neg h3]
        simp only [List.cons_append, readCompactSize]
        norm_num
        exact readLE_toBytesLE 8 n rest (by norm_num at h ⊢; omega)

theorem readString_encString (str rest : List Nat)
    (h : str.length < 2 ^ 64) :
    readString (encString str ++ rest) = some (str, rest) := by
  unfold readString encString
  rw [List.append_assoc, readCompactSize_encCompactSize str.length _ h]
  exact readBytesN_append str rest

theorem readU32Body_encU32Body (l rest : List Nat)
    (h : ∀ x ∈ l, x < 2 ^ 32) :
    readU32Body l.length (encU32Body l ++ rest) = some (l, rest) := by
  induction l with
  | nil => simp [encU32Body, readU32Body]
  | cons x xs ih =>
    have hx : x < 256 ^ 4 := by
      have hm := h x (by simp)
      norm_num at hm ⊢
      omega
    have hxs : readU32Body xs.length (encU32Body xs ++ rest) = some (xs, rest) :=
      ih (fun y hy => h y (by simp [hy]))
    simp [encU32Body, readU32Body, List.append_assoc,
      readLE_toBytesLE 4 x _ hx, hxs]

theorem readU32Vector_encU32Vector (l rest : List Nat)
    (hlen : l.length < 2 ^ 64) (h : ∀ x ∈ l, x < 2 ^ 32) :
    readU32Vector (encU32Vector l ++ rest) = some (l, rest) := by
  unfold readU32Vector encU32Vector
  rw [List.append_assoc, readCompactSize_encCompactSize l.length _ hlen]
  exact readU32Body_encU32Body l rest h

theorem readBool_encBool (b : Bool) (rest : List Nat) :
    readBool (encBool b ++ rest) = some (b, rest) := by
  cases b <;> simp [encBool, readBool]

theorem chdchain_roundtrip (c : CHDChain) (rest : List Nat)
    (hv : c.Valid) (hm : c.MatchesVersion) :
    CHDChain.deserialize (c.serialize ++ rest) = some (c, rest) := by
  obtain ⟨ext, inter, seed, v⟩ := c
  obtain ⟨h1, h2, ⟨hlen, hoct⟩, h4, h5⟩ := hv
  simp only at h1 h2 hlen hoct h4 h5
  have hxe : ext < 256 ^ 4 := by
    have h := h1
    norm_num at h ⊢
    omega
  have hxi : inter < 256 ^ 4 := by
    have h := h2
    norm_num at h ⊢
    omega
  unfold CHDChain.serialize CHDChain.deserialize
  simp only [List.append_assoc]
  rw [readInt32_encInt32 v _ h4 h5]
  simp only [Option.some_bind]
  rw [readLE_toBytesLE 4 ext _ hxe]
  simp only [Option.some_bind]
  by_cases hsplit : CHDChain.VERSION_HD_CHAIN_SPLIT ≤ v
  · simp only [if_pos hsplit]
    rw [readBytesN_append_of_length 20 seed _ hlen]
    simp only [Option.some_bind]
    rw [readLE_toBytesLE 4 inter rest hxi]
    simp [CHDChain.SetNull]
  · simp only [if_neg hsplit]
    simp only [List.nil_append]
    rw [readBytesN_append_of_length 20 seed _ hlen]
    simp only [Option.some_bind]
    simp only [CHDChain.MatchesVersion, CHDChain.VERSION_HD_CHAIN_SPLIT] at hm
    simp only [CHDChain.VERSION_HD_CHAIN_SPLIT] at hsplit
    have hz : inter = 0 := hm (by omega)
    simp [CHDChain.SetNull, hz]

theorem keyorigin_roundtrip (k : KeyOriginInfo)
    (rest : List Nat) (hv : k.Valid) :
    KeyOriginInfo.deserialize (k.serialize ++ rest) = some (k, rest) := by
  obtain ⟨fp, path⟩ := k
  obtain ⟨⟨hlen, hoct⟩, hplen, hpel⟩ := hv
  simp only at hlen hoct hplen hpel
  unfold KeyOriginInfo.serialize KeyOriginInfo.deserialize
  simp only [List.append_assoc]
  rw [readBytesN_append_of_length 4 fp _ hlen]
  simp only [Option.some_bind]
  rw [readU32Vector_encU32Vector path rest hplen hpel]
  simp

theorem ckeymetadata_roundtrip (m : CKeyMetadata)
    (rest : List Nat) (hv : m.Valid) (hm : m.MatchesVersion) :
    CKeyMetadata.deserialize (m.serialize ++ rest) = some (m, rest) := by
  obtain ⟨v, t, kp, sid, ko, hko⟩ := m
  obtain ⟨⟨hv1, hv2⟩, ⟨ht1, ht2⟩, ⟨hkplen, hkpoct⟩, ⟨hsidlen, hsidoct⟩, hkov⟩ := hv
  obtain ⟨hm10, hm12⟩ := hm
  simp only at hv1 hv2 ht1 ht2 hkplen hkpoct hsidlen hsidoct hkov hm10 hm12
  simp only [CKeyMetadata.VERSION_WITH_HDDATA,
    CKeyMetadata.VERSION_WITH_KEY_ORIGIN] at hm10 hm12
  unfold CKeyMetadata.serialize CKeyMetadata.deserialize
  simp only [List.append_assoc]
  rw [readInt32_encInt32 v _ hv1 hv2]
  simp only [Option.some_bind]
  rw [readInt64_encInt64 t _ ht1 ht2]
  simp only [Option.some_bind]
  by_cases h10 : CKeyMetadata.VERSION_WITH_HDDATA ≤ v
  · simp only [if_pos h10]
    rw [List.append_assoc, readString_encString kp _ hkplen]
    simp only [Option.some_bind]
    rw [readBytesN_append_of_length 20 sid _ hsidlen]
    by_cases h12 : CKeyMetadata.VERSION_WITH_KEY_ORIGIN ≤ v
    · simp only [if_pos h12, Option.map_some', Option.some_bind]
      rw [List.append_assoc, keyorigin_roundtrip ko _ hkov]
      simp only [Option.some_bind]
      rw [readBool_encBool hko rest]
      simp
    · simp only [if_neg h12, Option.map_some', Option.some_bind,
        List.append_nil]
      simp only [CKeyMetadata.VERSION_WITH_KEY_ORIGIN] at h12
      have hz := hm12 (by omega)
      simp only at hz
      simp [CKeyMetadata.SetNull, hz.1, hz.2]
  · simp only [if_neg h10, List.nil_append]
    by_cases h12 : CKeyMetadata.VERSION_WITH_KEY_ORIGIN ≤ v
    · exfalso
      simp only [CKeyMetadata.VERSION_WITH_KEY_ORIGIN] at h12
      simp only [CKeyMetadata.VERSION_WITH_HDDATA] at h10
      omega
    · simp only [if_neg h12, Option.some_bind, List.append_nil]
      simp only [CKeyMetadata.VERSION_WITH_HDDATA] at h10
      simp only [CKeyMetadata.VERSION_WITH_KEY_ORIGIN] at h12
      have hz10 := hm10 (by omega)
      have hz12 := hm12 (by omega)
      simp only at hz10 hz12
      simp [CKeyMetadata.SetNull, hz10.1, hz10.2, hz12.1, hz12.2]

theorem length_encInt32 (v : Int) : (encInt32 v).length = 4 :=
  length_toBytesLE 4 _

theorem length_encInt64 (v : Int) : (encInt64 v).length = 8 :=
  length_toBytesLE 8 _

theorem length_encString (s : List Nat) :
    (encString s).length = (encCompactSize s.length).length + s.length := by
  simp [encString]

theorem length_encU32Body (l : List Nat) :
    (encU32Body l).length = 4 * l.length := by
  induction l with
  | nil => simp [encU32Body]
  | cons x xs ih =>
    simp [encU32Body, ih, length_toBytesLE]
    omega

theorem length_encU32Vector (l : List Nat) :
    (encU32Vector l).length = (encCompactSize l.length).length + 4 * l.length := by
  simp [encU32Vector, length_encU32Body]

theorem keyorigin_serialize_length (k : KeyOriginInfo) (hv : k.Valid) :
    k.serialize.length =
      4 + (encCompactSize k.path.length).length + 4 * k.path.length := by
  obtain ⟨⟨hlen, _⟩, _, _⟩ := hv
  simp [KeyOriginInfo.serialize, length_encU32Vector, hlen]
  omega

theorem chdchain_serialize_length (c : CHDChain) (hv : c.Valid) :
    c.serialize.length =
      if CHDChain.VERSION_HD_CHAIN_SPLIT ≤ c.nVersion then 32 else 28 := by
  obtain ⟨_, _, ⟨hlen, _⟩, _, _⟩ := hv
  by_cases hsplit : CHDChain.VERSION_HD_CHAIN_SPLIT ≤ c.nVersion
  · simp [CHDChain.serialize, if_pos hsplit, length_encInt32,
      length_toBytesLE, hlen]
  · simp [CHDChain.serialize, if_neg hsplit, length_encInt32,
      length_toBytesLE, hlen]

/-- A low-version `CHDChain` record serializes to the same bytes as its
copy with the internal counter zeroed: the gated field never reaches the
stream. -/
theorem chdchain_serialize_mask (c : CHDChain)
    (h : c.nVersion < CHDChain.VERSION_HD_CHAIN_SPLIT) :
    c.serialize =
      ({ c with nInternalChainCounter := 0 } : CHDChain).serialize := by
  have hns : ¬ CHDChain.VERSION_HD_CHAIN_SPLIT ≤ c.nVersion := by omega
  simp [CHDChain.serialize, if_neg hns]

theorem isBytes_nullKeyID : IsBytes 20 nullKeyID := by decide

theorem keyOriginInfo_clear_valid : KeyOriginInfo.clear.Valid := by decide

/-- A pre-HD-data `CKeyMetadata` record serializes to the same bytes as
its copy with every gated field at its `SetNull` default. -/
theorem ckeymetadata_serialize_mask10 (m : CKeyMetadata)
    (h : m.nVersion < CKeyMetadata.VERSION_WITH_HDDATA) :
    m.serialize =
      ({ m with
          hdKeypath := []
          hd_seed_id := nullKeyID
          key_origin := KeyOriginInfo.clear
          has_key_origin := false } : CKeyMetadata).serialize := by
  have h10 : ¬ CKeyMetadata.VERSION_WITH_HDDATA ≤ m.nVersion := by omega
  have h12 : ¬ CKeyMetadata.VERSION_WITH_KEY_ORIGIN ≤ m.nVersion := by
    simp only [CKeyMetadata.VERSION_WITH_HDDATA] at h
    simp only [CKeyMetadata.VERSION_WITH_KEY_ORIGIN]
    omega
  simp [CKeyMetadata.serialize, if_neg h10, if_neg h12]

/-- A `CKeyMetadata` record with HD data but no key origin serializes to
the same bytes as its copy with the key-origin group at its default. -/
theorem ckeymetadata_serialize_mask12 (m : CKeyMetadata)
    (h : m.nVersion < CKeyMetadata.VERSION_WITH_KEY_ORIGIN) :
    m.serialize =
      ({ m with
          key_origin := KeyOriginInfo.clear
          has_key_origin := false } : CKeyMetadata).serialize := by
  have h12 : ¬ CKeyMetadata.VERSION_WITH_KEY_ORIGIN ≤ m.nVersion := by omega
  by_cases h10 : CKeyMetadata.VERSION_WITH_HDDATA ≤ m.nVersion
  · simp [CKeyMetadata.serialize, if_pos h10, if_neg h12]
  · simp [CKeyMetadata.serialize, if_neg h10, if_neg h12]

theorem ckeymetadata_serialize_length (m : CKeyMetadata) (hv : m.Valid) :
    m.serialize.length =
      12 +
        (if CKeyMetadata.VERSION_WITH_HDDATA ≤ m.nVersion then
          (encCompactSize m.hdKeypath.length).length + m.hdKeypath.length + 20
        else 0) +
        (if CKeyMetadata.VERSION_WITH_KEY_ORIGIN ≤ m.nVersion then
          4 + (encCompactSize m.key_origin.path.length).length +
            4 * m.key_origin.path.length + 1
        else 0) := by
  obtain ⟨_, _, _, ⟨hsidlen, _⟩, hkov⟩ := hv
  have hko := keyorigin_serialize_length m.key_origin hkov
  by_cases h10 : CKeyMetadata.VERSION_WITH_HDDATA ≤ m.nVersion <;>
    by_cases h12 : CKeyMetadata.VERSION_WITH_KEY_ORIGIN ≤ m.nVersion <;>
    simp [CKeyMetadata.serialize, h10, h12, length_encInt32, length_encInt64,
      length_encString, encBool, hko, hsidlen] <;>
    omega

/-- Claim C1, amended: for every schema version, every representable value
carrying that version whose fields gated strictly above that version are
at their `SetNull` defaults round-trips exactly through the codec —
including values whose present optional fields (version at or above the
gate) are non-default.  The amendment (the `MatchesVersion` hypothesis) is
forced by `claim_C1_counterexample`. -/
theorem claim_C1_roundtrip (c : CHDChain) (m : CKeyMetadata)
    (r1 r2 : List Nat) (hc : c.Valid) (hcm : c.MatchesVersion)
    (hk : m.Valid) (hkm : m.MatchesVersion) :
    CHDChain.deserialize (c.serialize ++ r1) = some (c, r1) ∧
    CKeyMetadata.deserialize (m.serialize ++ r2) = some (m, r2) :=
  ⟨chdchain_roundtrip c r1 hc hcm,
    ckeymetadata_roundtrip m r2 hk hkm⟩

/-- Claim C1, counterexample to the literal statement: a `CHDChain` value
carrying version 1 whose version-gated internal counter is non-default
(3) does not round-trip — the encoder drops the counter and the decoder
leaves the default 0. -/
theorem claim_C1_counterexample :
    CHDChain.deserialize (CHDChain.serialize ⟨5, 3, nullKeyID, 1⟩) ≠
      some ((⟨5, 3, nullKeyID, 1⟩ : CHDChain), []) := by decide

/-- Witness for C1: a version-2 chain record with a non-default internal
counter and a version-12 metadata record with non-default keypath, seed
and key origin round-trip exactly. -/
theorem claim_C1_roundtrip_witness :
    CHDChain.deserialize
        (CHDChain.serialize ⟨5, 3, nullKeyID, 2⟩ ++ []) =
      some ((⟨5, 3, nullKeyID, 2⟩ : CHDChain), []) ∧
    CKeyMetadata.deserialize
        (CKeyMetadata.serialize
            ⟨12, 1600000000, [109, 47, 48], List.replicate 20 7,
              ⟨[222, 173, 190, 239], [2147483648, 1]⟩, true⟩ ++ []) =
      some ((⟨12, 1600000000, [109, 47, 48], List.replicate 20 7,
          ⟨[222, 173, 190, 239], [2147483648, 1]⟩, true⟩ : CKeyMetadata),
        []) :=
  claim_C1_roundtrip ⟨5, 3, nullKeyID, 2⟩
    ⟨12, 1600000000, [109, 47, 48], List.replicate 20 7,
      ⟨[222, 173, 190, 239], [2147483648, 1]⟩, true⟩
    [] [] (by decide) (by decide) (by decide) (by decide)

/-- Claim C2: the internal-chain counter occupies the encoded form (32
octets instead of 28) iff the record's version reaches
`VERSION_HD_CHAIN_SPLIT`; decoding an older-version record into a freshly
constructed `CHDChain` yields internal counter 0, with the version and the
remaining fields read from the stream. -/
theorem claim_C2_chain_split (c : CHDChain) (hv : c.Valid) :
    (c.serialize.length =
      if CHDChain.VERSION_HD_CHAIN_SPLIT ≤ c.nVersion then 32 else 28) ∧
    (c.nVersion < CHDChain.VERSION_HD_CHAIN_SPLIT →
      CHDChain.deserialize c.serialize =
        some ({ c with nInternalChainCounter := 0 }, [])) := by
  refine ⟨chdchain_serialize_length c hv, fun hlow => ?_⟩
  rw [chdchain_serialize_mask c hlow]
  have hv2 : ({ c with nInternalChainCounter := 0 } : CHDChain).Valid := by
    obtain ⟨h1, h2, h3, h4, h5⟩ := hv
    exact ⟨h1, by norm_num, h3, h4, h5⟩
  have hm2 : ({ c with nInternalChainCounter := 0 } : CHDChain).MatchesVersion :=
    fun _ => rfl
  have h := chdchain_roundtrip _ [] hv2 hm2
  rwa [List.append_nil] at h

/-- Witness for C2, the spec's example: a version-1 record with external
counter 5 encodes to 28 octets (no internal counter) and reads back with
internal counter 0 and version 1; re-encoded at version 2 with internal
counter 3 it occupies 32 octets and reads back in full. -/
theorem claim_C2_chain_split_witness :
    (CHDChain.serialize ⟨5, 0, nullKeyID, 1⟩).length = 28 ∧
    CHDChain.deserialize (CHDChain.serialize ⟨5, 0, nullKeyID, 1⟩) =
      some ((⟨5, 0, nullKeyID, 1⟩ : CHDChain), []) ∧
    (CHDChain.serialize ⟨5, 3, nullKeyID, 2⟩).length = 32 := by
  have h := claim_C2_chain_split ⟨5, 0, nullKeyID, 1⟩ (by decide)
  have h1 := h.1
  rw [if_neg (by decide :
    ¬ CHDChain.VERSION_HD_CHAIN_SPLIT ≤
      (⟨5, 0, nullKeyID, 1⟩ : CHDChain).nVersion)] at h1
  have h3 := claim_C2_chain_split ⟨5, 3, nullKeyID, 2⟩ (by decide)
  have h4 := h3.1
  rw [if_pos (by decide :
    CHDChain.VERSION_HD_CHAIN_SPLIT ≤
      (⟨5, 3, nullKeyID, 2⟩ : CHDChain).nVersion)] at h4
  exact ⟨h1, h.2 (by decide), h4⟩

/-- Claim C3: each optional group of `CKeyMetadata` occupies the encoded
form iff the record's version reaches the group's introduction version
(the encoded length grows by exactly that group's size), and decoding a
lower-version record into a freshly constructed `CKeyMetadata` leaves
every absent field at its `SetNull` default: empty keypath, null seed id,
cleared key origin, `has_key_origin = false`. -/
theorem claim_C3_metadata_gating (m : CKeyMetadata) (hv : m.Valid) :
    (m.serialize.length =
      12 +
        (if CKeyMetadata.VERSION_WITH_HDDATA ≤ m.nVersion then
          (encCompactSize m.hdKeypath.length).length + m.hdKeypath.length + 20
        else 0) +
        (if CKeyMetadata.VERSION_WITH_KEY_ORIGIN ≤ m.nVersion then
          4 + (encCompactSize m.key_origin.path.length).length +
            4 * m.key_origin.path.length + 1
        else 0)) ∧
    (m.nVersion < CKeyMetadata.VERSION_WITH_HDDATA →
      CKeyMetadata.deserialize m.serialize =
        some ({ m with
            hdKeypath := []
            hd_seed_id := nullKeyID
            key_origin := KeyOriginInfo.clear
            has_key_origin := false }, [])) ∧
    (CKeyMetadata.VERSION_WITH_HDDATA ≤ m.nVersion →
      m.nVersion < CKeyMetadata.VERSION_WITH_KEY_ORIGIN →
      CKeyMetadata.deserialize m.serialize =
        some ({ m with
            key_origin := KeyOriginInfo.clear
            has_key_origin := false }, [])) := by
  obtain ⟨ha, hb, hc, hd, he⟩ := hv
  refine ⟨ckeymetadata_serialize_length m ⟨ha, hb, hc, hd, he⟩,
    fun hlow => ?_, fun h10 h12 => ?_⟩
  · rw [ckeymetadata_serialize_mask10 m hlow]
    have hv2 : ({ m with
        hdKeypath := []
        hd_seed_id := nullKeyID
        key_origin := KeyOriginInfo.clear
        has_key_origin := false } : CKeyMetadata).Valid := by
      refine ⟨ha, hb, ⟨by norm_num, by simp⟩, isBytes_nullKeyID,
        keyOriginInfo_clear_valid⟩
    have hm2 : ({ m with
        hdKeypath := []
        hd_seed_id := nullKeyID
        key_origin := KeyOriginInfo.clear
        has_key_origin := false } : CKeyMetadata).MatchesVersion :=
      ⟨fun _ => ⟨rfl, rfl⟩, fun _ => ⟨rfl, rfl⟩⟩
    have h := ckeymetadata_roundtrip _ [] hv2 hm2
    rwa [List.append_nil] at h
  · rw [ckeymetadata_serialize_mask12 m h12]
    have hv2 : ({ m with
        key_origin := KeyOriginInfo.clear
        has_key_origin := false } : CKeyMetadata).Valid :=
      ⟨ha, hb, hc, hd, keyOriginInfo_clear_valid⟩
    have hm2 : ({ m with
        key_origin := KeyOriginInfo.clear
        has_key_origin := false } : CKeyMetadata).MatchesVersion :=
      ⟨fun hlt => absurd hlt (not_lt.mpr h10), fun _ => ⟨rfl, rfl⟩⟩
    have h := ckeymetadata_roundtrip _ [] hv2 hm2
    rwa [List.append_nil] at h

/-- Witness for C3: a version-1 metadata record (12 octets, groups absent)
decodes with every optional field at its default, and a version-10 record
keeps its keypath and seed id while the key-origin group stays default. -/
theorem claim_C3_metadata_gating_witness :
    CKeyMetadata.deserialize
        (CKeyMetadata.serialize
          ⟨1, 77, [109], List.replicate 20 9, ⟨[1, 2, 3, 4], [5]⟩, true⟩) =
      some ((⟨1, 77, [], nullKeyID, KeyOriginInfo.clear, false⟩ :
        CKeyMetadata), []) ∧
    CKeyMetadata.deserialize
        (CKeyMetadata.serialize
          ⟨10, 77, [109], List.replicate 20 9, ⟨[1, 2, 3, 4], [5]⟩, true⟩) =
      some ((⟨10, 77, [109], List.replicate 20 9, KeyOriginInfo.clear,
          false⟩ : CKeyMetadata), []) := by
  have h1 := claim_C3_metadata_gating
    ⟨1, 77, [109], List.replicate 20 9, ⟨[1, 2, 3, 4], [5]⟩, true⟩ (by decide)
  have h2 := claim_C3_metadata_gating
    ⟨10, 77, [109], List.replicate 20 9, ⟨[1, 2, 3, 4], [5]⟩, true⟩ (by decide)
  exact ⟨h1.2.1 (by decide), h2.2.2 (by decide) (by decide)⟩

/-- Claim C4: a metadata record whose version exceeds the reader's maximum
known version is classified `TOO_NEW` at the load-pipeline level, and the
codec itself still decodes it totally (no crash, no guessed layout): it
reads exactly the fields it knows — the layout of the newest tier — and
leaves any trailing unknown bytes untouched in the stream. -/
theorem claim_C4_too_new (m : CKeyMetadata) (extra : List Nat)
    (hv : m.Valid) (hnew : CKeyMetadata.CURRENT_VERSION < m.nVersion) :
    classifyMetadataVersion m.nVersion = DBErrors.TOO_NEW ∧
    CKeyMetadata.deserialize (m.serialize ++ extra) = some (m, extra) := by
  constructor
  · simp [classifyMetadataVersion, if_pos hnew]
  · refine ckeymetadata_roundtrip m extra hv ⟨fun hlt => ?_, fun hlt => ?_⟩
    · exfalso
      simp only [CKeyMetadata.CURRENT_VERSION,
        CKeyMetadata.VERSION_WITH_KEY_ORIGIN] at hnew
      simp only [CKeyMetadata.VERSION_WITH_HDDATA] at hlt
      omega
    · exfalso
      simp only [CKeyMetadata.CURRENT_VERSION] at hnew
      omega

/-- Witness for C4: a version-13 metadata record (one past the newest
known tier) is classified `TOO_NEW`, and decoding its known-field image
followed by two unknown trailing octets succeeds and stops before them. -/
theorem claim_C4_too_new_witness :
    classifyMetadataVersion
        (⟨13, 7, [109], List.replicate 20 9, ⟨[1, 2, 3, 4], [5]⟩, true⟩ :
          CKeyMetadata).nVersion = DBErrors.TOO_NEW ∧
    CKeyMetadata.deserialize
        (CKeyMetadata.serialize
            ⟨13, 7, [109], List.replicate 20 9, ⟨[1, 2, 3, 4], [5]⟩, true⟩ ++
          [250, 251]) =
      some ((⟨13, 7, [109], List.replicate 20 9, ⟨[1, 2, 3, 4], [5]⟩,
          true⟩ : CKeyMetadata), [250, 251]) :=
  claim_C4_too_new
    ⟨13, 7, [109], List.replicate 20 9, ⟨[1, 2, 3, 4], [5]⟩, true⟩
    [250, 251] (by decide) (by decide)

theorem writeIC_true_step (st : WalletStore) :
    (WriteIC true st).1 = true ∧
    (WriteIC true st).2.nUpdateCounter = st.nUpdateCounter + 1 ∧
    (WriteIC true st).2.nFlushCount =
      st.nFlushCount +
        (if (st.nUpdateCounter + 1) % 1000 = 0 then 1 else 0) := by
  by_cases h : (st.nUpdateCounter + 1) % 1000 = 0 <;>
    simp [WriteIC, h]

theorem eraseIC_true_step (st : WalletStore) :
    (EraseIC true st).1 = true ∧
    (EraseIC true st).2.nUpdateCounter = st.nUpdateCounter + 1 ∧
    (EraseIC true st).2.nFlushCount =
      st.nFlushCount +
        (if (st.nUpdateCounter + 1) % 1000 = 0 then 1 else 0) := by
  by_cases h : (st.nUpdateCounter + 1) % 1000 = 0 <;>
    simp [EraseIC, h]

theorem runICOps_counts (ops : List Bool) (st : WalletStore) :
    (runICOps ops st).nUpdateCounter = st.nUpdateCounter + ops.length ∧
    (runICOps ops st).nFlushCount + st.nUpdateCounter / 1000 =
      st.nFlushCount + (st.nUpdateCounter + ops.length) / 1000 := by
  induction ops generalizing st with
  | nil => simp [runICOps]
  | cons op rest ih =>
    have hstep :
        (if op then (WriteIC true st).2 else (EraseIC true st).2).nUpdateCounter
            = st.nUpdateCounter + 1 ∧
        (if op then (WriteIC true st).2 else (EraseIC true st).2).nFlushCount
            = st.nFlushCount +
              (if (st.nUpdateCounter + 1) % 1000 = 0 then 1 else 0) := by
      cases op
      · exact ⟨(eraseIC_true_step st).2.1, (eraseIC_true_step st).2.2⟩
      · exact ⟨(writeIC_true_step st).2.1, (writeIC_true_step st).2.2⟩
    obtain ⟨ihc, ihf⟩ := ih (if op then (WriteIC true st).2 else (EraseIC true st).2)
    rw [hstep.1] at ihc ihf
    rw [hstep.2] at ihf
    by_cases h : (st.nUpdateCounter + 1) % 1000 = 0
    · rw [if_pos h] at ihf
      refine ⟨?_, ?_⟩ <;> simp only [runICOps, List.length_cons] <;> omega
    · rw [if_neg h] at ihf
      refine ⟨?_, ?_⟩ <;> simp only [runICOps, List.length_cons] <;> omega

theorem runICOps_append (a b : List Bool) (st : WalletStore) :
    runICOps (a ++ b) st = runICOps b (runICOps a st) := by
  induction a generalizing st with
  | nil => simp [runICOps]
  | cons op rest ih => simp [runICOps, ih]

/-- Claim C5: every successful write or erase increments the store-wide
update counter by exactly one and triggers a flush iff the incremented
counter is a multiple of 1000; over any sequence of N successful
operations from a fresh store the counter is N, the number of flushes is
N / 1000 (so none occurs strictly between multiples), and the (N+1)-st
operation flushes iff N + 1 is a multiple of 1000. -/
theorem claim_C5_flush_cadence (st : WalletStore) (ops : List Bool)
    (op : Bool) :
    ((WriteIC true st).1 = true ∧
      (WriteIC true st).2.nUpdateCounter = st.nUpdateCounter + 1 ∧
      ((WriteIC true st).2.nFlushCount = st.nFlushCount + 1 ↔
        (st.nUpdateCounter + 1) % 1000 = 0) ∧
      ((WriteIC true st).2.nFlushCount = st.nFlushCount ↔
        ¬(st.nUpdateCounter + 1) % 1000 = 0)) ∧
    ((EraseIC true st).1 = true ∧
      (EraseIC true st).2.nUpdateCounter = st.nUpdateCounter + 1 ∧
      ((EraseIC true st).2.nFlushCount = st.nFlushCount + 1 ↔
        (st.nUpdateCounter + 1) % 1000 = 0) ∧
      ((EraseIC true st).2.nFlushCount = st.nFlushCount ↔
        ¬(st.nUpdateCounter + 1) % 1000 = 0)) ∧
    ((runICOps ops WalletStore.init).nUpdateCounter = ops.length ∧
      (runICOps ops WalletStore.init).nFlushCount = ops.length / 1000) ∧
    ((runICOps (ops ++ [op]) WalletStore.init).nFlushCount =
      (runICOps ops WalletStore.init).nFlushCount +
        if (ops.length + 1) % 1000 = 0 then 1 else 0) := by
  have hw := writeIC_true_step st
  have he := eraseIC_true_step st
  have hr := runICOps_counts ops WalletStore.init
  have h0c : WalletStore.init.nUpdateCounter = 0 := rfl
  have h0f : WalletStore.init.nFlushCount = 0 := rfl
  have hrc : (runICOps ops WalletStore.init).nUpdateCounter = ops.length := by
    have h := hr.1
    rw [h0c] at h
    omega
  have hrf : (runICOps ops WalletStore.init).nFlushCount =
      ops.length / 1000 := by
    have h := hr.2
    rw [h0c, h0f] at h
    omega
  refine ⟨⟨hw.1, hw.2.1, ?_, ?_⟩, ⟨he.1, he.2.1, ?_, ?_⟩, ⟨hrc, hrf⟩, ?_⟩
  · rw [hw.2.2]
    by_cases h : (st.nUpdateCounter + 1) % 1000 = 0 <;> simp [h]
  · rw [hw.2.2]
    by_cases h : (st.nUpdateCounter + 1) % 1000 = 0 <;> simp [h]
  · rw [he.2.2]
    by_cases h : (st.nUpdateCounter + 1) % 1000 = 0 <;> simp [h]
  · rw [he.2.2]
    by_cases h : (st.nUpdateCounter + 1) % 1000 = 0 <;> simp [h]
  · rw [runICOps_append]
    have hstep2 : (runICOps [op] (runICOps ops WalletStore.init)).nFlushCount =
        (runICOps ops WalletStore.init).nFlushCount +
          if ((runICOps ops WalletStore.init).nUpdateCounter + 1) % 1000 = 0
          then 1 else 0 := by
      cases op <;>
        simp [runICOps, (eraseIC_true_step (runICOps ops WalletStore.init)).2.2,
          (writeIC_true_step (runICOps ops WalletStore.init)).2.2]
    rw [hstep2, hrc]

/-- Claim C9: when the engine write or erase fails, `WriteIC` / `EraseIC`
return `false` synchronously with the store untouched — the update counter
is unchanged and no flush is attempted (and no retry happens, the result
being a plain value). -/
theorem claim_C9_failed_op_no_effect (st : WalletStore) :
    WriteIC false st = (false, st) ∧ EraseIC false st = (false, st) ∧
    (WriteIC false st).2.nUpdateCounter = st.nUpdateCounter ∧
    (WriteIC false st).2.nFlushCount = st.nFlushCount ∧
    (EraseIC false st).2.nUpdateCounter = st.nUpdateCounter ∧
    (EraseIC false st).2.nFlushCount = st.nFlushCount := by
  simp [WriteIC, EraseIC]

theorem severityRank_eq_zero (e : DBErrors) (h : severityRank e = 0) :
    e = DBErrors.LOAD_OK := by
  cases e <;> simp [severityRank] at h ⊢

theorem severityRank_lt_five (e : DBErrors) (h : e ≠ DBErrors.LOAD_FAIL) :
    severityRank e < 5 := by
  cases e <;> simp [severityRank] at h ⊢

theorem le_combine_left (a b : DBErrors) :
    severityRank a ≤ severityRank (combineDBErrors a b) := by
  unfold combineDBErrors
  split <;> omega

theorem le_combine_right (a b : DBErrors) :
    severityRank b ≤ severityRank (combineDBErrors a b) := by
  unfold combineDBErrors
  split <;> omega

theorem combine_eq_or (a b : DBErrors) :
    combineDBErrors a b = a ∨ combineDBErrors a b = b := by
  unfold combineDBErrors
  split
  · right
    rfl
  · left
    rfl

theorem loadWalletScan_ok_iff (l : List DBErrors) :
    (LoadWalletScan l).1 = DBErrors.LOAD_OK ↔
      ∀ e ∈ l, e = DBErrors.LOAD_OK := by
  induction l with
  | nil => simp [LoadWalletScan]
  | cons e rest ih =>
    by_cases hf : e = DBErrors.LOAD_FAIL
    · subst hf
      simp [LoadWalletScan]
    · simp only [LoadWalletScan, if_neg hf]
      constructor
      · intro h
        have hre : severityRank e = 0 := by
          have h1 := le_combine_left e (LoadWalletScan rest).1
          rw [h] at h1
          simp [severityRank] at h1
          exact h1
        have hrr : severityRank (LoadWalletScan rest).1 = 0 := by
          have h1 := le_combine_right e (LoadWalletScan rest).1
          rw [h] at h1
          simp [severityRank] at h1
          exact h1
        have he := severityRank_eq_zero e hre
        have hr := severityRank_eq_zero _ hrr
        intro x hx
        rcases List.mem_cons.mp hx with hx | hx
        · rw [hx, he]
        · exact (ih.mp hr) x hx
      · intro h
        have he := h e (List.mem_cons_self e rest)
        have hr : (LoadWalletScan rest).1 = DBErrors.LOAD_OK :=
          ih.mpr (fun x hx => h x (List.mem_cons_of_mem e hx))
        rw [he, hr]
        rfl

theorem loadWalletScan_fail_of_mem (l : List DBErrors)
    (h : DBErrors.LOAD_FAIL ∈ l) :
    (LoadWalletScan l).1 = DBErrors.LOAD_FAIL := by
  induction l with
  | nil => cases h
  | cons e rest ih =>
    by_cases hf : e = DBErrors.LOAD_FAIL
    · simp [LoadWalletScan, hf]
    · simp only [LoadWalletScan, if_neg hf]
      have hm : DBErrors.LOAD_FAIL ∈ rest := by
        rcases List.mem_cons.mp h with hx | hx
        · exact absurd hx.symm hf
        · exact hx
      rw [ih hm]
      unfold combineDBErrors
      rw [if_pos (by simpa [severityRank] using severityRank_lt_five e hf)]

theorem loadWalletScan_processed (l : List DBErrors) :
    (LoadWalletScan l).2 =
      (l.takeWhile (fun e => e != DBErrors.LOAD_FAIL)).length +
        (if DBErrors.LOAD_FAIL ∈ l then 1 else 0) := by
  induction l with
  | nil => simp [LoadWalletScan]
  | cons e rest ih =>
    by_cases hf : e = DBErrors.LOAD_FAIL
    · subst hf
      simp [LoadWalletScan, List.takeWhile_cons]
    · have hb : (e != DBErrors.LOAD_FAIL) = true := by
        simpa using hf
      have hif : (if DBErrors.LOAD_FAIL = e ∨ DBErrors.LOAD_FAIL ∈ rest
            then (1 : Nat) else 0) =
          (if DBErrors.LOAD_FAIL ∈ rest then 1 else 0) := by
        by_cases hm : DBErrors.LOAD_FAIL ∈ rest
        · rw [if_pos hm, if_pos (Or.inr hm)]
        · rw [if_neg hm, if_neg (fun hx => hx.elim (fun h1 => hf h1.symm) hm)]
      simp [LoadWalletScan, hf, ih, List.takeWhile_cons, hb, hif]
      omega

theorem loadWalletScan_rank_le (l : List DBErrors) (e : DBErrors)
    (h : e ∈ l) :
    severityRank e ≤ severityRank (LoadWalletScan l).1 := by
  induction l with
  | nil => cases h
  | cons x rest ih =>
    by_cases hf : x = DBErrors.LOAD_FAIL
    · subst hf
      simp only [LoadWalletScan, if_pos rfl]
      have h5 : severityRank e ≤ 5 := by cases e <;> simp [severityRank]
      simpa [severityRank] using h5
    · simp only [LoadWalletScan, if_neg hf]
      rcases List.mem_cons.mp h with hx | hx
      · rw [hx]
        exact le_combine_left x _
      · exact le_trans (ih hx) (le_combine_right x _)

theorem loadWalletScan_result_observed (l : List DBErrors) :
    (LoadWalletScan l).1 ∈ l ∨ (LoadWalletScan l).1 = DBErrors.LOAD_OK := by
  induction l with
  | nil => right; rfl
  | cons e rest ih =>
    by_cases hf : e = DBErrors.LOAD_FAIL
    · subst hf
      left
      simp [LoadWalletScan]
    · simp only [LoadWalletScan, if_neg hf]
      rcases combine_eq_or e (LoadWalletScan rest).1 with hc | hc
    <;> rw [hc]
      · left
        exact List.mem_cons_self e rest
      · rcases ih with hm | ho
        · left
          exact List.mem_cons_of_mem e hm
        · right
          exact ho

theorem loadWalletScan_nofail_takeWhile (l : List DBErrors)
    (h : DBErrors.LOAD_FAIL ∉ l) :
    l.takeWhile (fun e => e != DBErrors.LOAD_FAIL) = l := by
  induction l with
  | nil => rfl
  | cons e rest ih =>
    have hf : e ≠ DBErrors.LOAD_FAIL := fun he => h (he ▸ List.mem_cons_self e rest)
    have hb : (e != DBErrors.LOAD_FAIL) = true := by simpa using hf
    simp only [List.takeWhile_cons, hb, if_pos]
    rw [ih (fun hm => h (List.mem_cons_of_mem e hm))]

/-- Claim C6: the scan returns success iff every record classified as
success; unrecoverable load failure anywhere makes the overall result
unrecoverable load failure; only unrecoverable load failure stops the
scan early (the processed count runs to the first such record, otherwise
over the whole store); and absent it, the result is the single most
severe classification observed (an observed value, or success). -/
theorem claim_C6_load_aggregation (l : List DBErrors) :
    ((LoadWalletScan l).1 = DBErrors.LOAD_OK ↔
      ∀ e ∈ l, e = DBErrors.LOAD_OK) ∧
    (DBErrors.LOAD_FAIL ∈ l →
      (LoadWalletScan l).1 = DBErrors.LOAD_FAIL) ∧
    ((LoadWalletScan l).2 =
      (l.takeWhile (fun e => e != DBErrors.LOAD_FAIL)).length +
        (if DBErrors.LOAD_FAIL ∈ l then 1 else 0)) ∧
    (DBErrors.LOAD_FAIL ∉ l → (LoadWalletScan l).2 = l.length) ∧
    (∀ e ∈ l, severityRank e ≤ severityRank (LoadWalletScan l).1) ∧
    ((LoadWalletScan l).1 ∈ l ∨ (LoadWalletScan l).1 = DBErrors.LOAD_OK) := by
  refine ⟨loadWalletScan_ok_iff l, loadWalletScan_fail_of_mem l,
    loadWalletScan_processed l, fun hnf => ?_,
    loadWalletScan_rank_le l, loadWalletScan_result_observed l⟩
  rw [loadWalletScan_processed l, loadWalletScan_nofail_takeWhile l hnf,
    if_neg hnf]
  omega

/-- Witness for C6: in a scan seeing corruption, then unrecoverable load
failure, then a too-new record, the result is unrecoverable load failure
and the scan stopped after two records; without the failure the whole
store is scanned and the most severe observed classification wins. -/
theorem claim_C6_load_aggregation_witness :
    (LoadWalletScan
        [DBErrors.CORRUPT, DBErrors.LOAD_FAIL, DBErrors.TOO_NEW]).1 =
      DBErrors.LOAD_FAIL ∧
    (LoadWalletScan
        [DBErrors.CORRUPT, DBErrors.LOAD_FAIL, DBErrors.TOO_NEW]).2 = 2 ∧
    (LoadWalletScan [DBErrors.NONCRITICAL_ERROR, DBErrors.CORRUPT]).2 = 2 := by
  have h1 := claim_C6_load_aggregation
    [DBErrors.CORRUPT, DBErrors.LOAD_FAIL, DBErrors.TOO_NEW]
  have h2 := claim_C6_load_aggregation
    [DBErrors.NONCRITICAL_ERROR, DBErrors.CORRUPT]
  refine ⟨h1.2.1 (by decide), ?_, h2.2.2.2.1 (by decide)⟩
  rw [h1.2.2.1]
  decide

theorem zapSelectTx_store_mem (store req : List Nat) (t : Nat) :
    t ∈ (ZapSelectTx store req).1 ↔ (t ∈ store ∧ t ∉ req) := by
  induction req generalizing store with
  | nil => simp [ZapSelectTx]
  | cons r rs ih =>
    by_cases hr : r ∈ store
    · simp only [ZapSelectTx, if_pos hr]
      rw [ih]
      simp only [List.mem_filter, List.mem_cons]
      constructor
      · rintro ⟨⟨hts, htr⟩, htn⟩
        refine ⟨hts, fun hx => ?_⟩
        rcases hx with hx | hx
        · simp at htr
          exact htr hx
        · exact htn hx
      · rintro ⟨hts, htn⟩
        refine ⟨⟨hts, ?_⟩, fun hx => htn (Or.inr hx)⟩
        simpa using fun he => htn (Or.inl he)
    · simp only [ZapSelectTx, if_neg hr]
      rw [ih]
      simp only [List.mem_cons]
      constructor
      · rintro ⟨hts, htn⟩
        refine ⟨hts, fun hx => ?_⟩
        rcases hx with hx | hx
        · exact hr (hx ▸ hts)
        · exact htn hx
      · rintro ⟨hts, htn⟩
        exact ⟨hts, fun hx => htn (Or.inr hx)⟩

theorem zapSelectTx_removed_mem (store req : List Nat) (x : Nat) :
    x ∈ (ZapSelectTx store req).2.1 ↔ (x ∈ req ∧ x ∈ store) := by
  induction req generalizing store with
  | nil => simp [ZapSelectTx]
  | cons r rs ih =>
    by_cases hr : r ∈ store
    · simp only [ZapSelectTx, if_pos hr, List.mem_cons]
      rw [ih]
      simp only [List.mem_filter]
      constructor
      · rintro (hx | ⟨hxr, hxs, _⟩)
        · exact ⟨Or.inl hx, hx ▸ hr⟩
        · exact ⟨Or.inr hxr, hxs⟩
      · rintro ⟨hx | hx, hxs⟩
        · exact Or.inl hx
        · by_cases hxr : x = r
          · exact Or.inl hxr
          · exact Or.inr ⟨hx, hxs, by simpa using hxr⟩
    · simp only [ZapSelectTx, if_neg hr, List.mem_cons]
      rw [ih]
      constructor
      · rintro ⟨hx, hxs⟩
        exact ⟨Or.inr hx, hxs⟩
      · rintro ⟨hx | hx, hxs⟩
        · exact absurd (hx ▸ hxs) hr
        · exact ⟨hx, hxs⟩

theorem zapSelectTx_notfound_mem (store req : List Nat) (x : Nat)
    (hnd : req.Nodup) :
    x ∈ (ZapSelectTx store req).2.2 ↔ (x ∈ req ∧ x ∉ store) := by
  induction req generalizing store with
  | nil => simp [ZapSelectTx]
  | cons r rs ih =>
    obtain ⟨hrn, hnd2⟩ := List.nodup_cons.mp hnd
    by_cases hr : r ∈ store
    · simp only [ZapSelectTx, if_pos hr, List.mem_cons]
      rw [ih (store.filter (fun t => t != r)) hnd2]
      simp only [List.mem_filter]
      constructor
      · rintro ⟨hx, hxf⟩
        refine ⟨Or.inr hx, fun hxs => ?_⟩
        by_cases hxr : x = r
        · exact hrn (hxr ▸ hx)
        · exact hxf ⟨hxs, by simpa using hxr⟩
      · rintro ⟨hx | hx, hxs⟩
        · exact absurd (hx ▸ hr) hxs
        · exact ⟨hx, fun hf => hxs hf.1⟩
    · simp only [ZapSelectTx, if_neg hr, List.mem_cons]
      rw [ih store hnd2]
      constructor
      · rintro (hx | ⟨hx, hxs⟩)
        · exact ⟨Or.inl hx, hx ▸ hr⟩
        · exact ⟨Or.inr hx, hxs⟩
      · rintro ⟨hx | hx, hxs⟩
        · exact Or.inl hx
        · exact Or.inr ⟨hx, hxs⟩

/-- Claim C7: for any set of requested transaction ids, the zap deletes
exactly the transaction records whose id was requested (the remaining
store holds an id iff it was present and not requested), every requested
id lands in exactly one of the two outputs — removed iff it was present,
not-found iff it was absent, never both, never neither — and no id of the
removed partition remains in the store. -/
theorem claim_C7_zap_select (store req : List Nat) (hnd : req.Nodup) :
    (∀ x, x ∈ (ZapSelectTx store req).2.1 ↔ (x ∈ req ∧ x ∈ store)) ∧
    (∀ x, x ∈ (ZapSelectTx store req).2.2 ↔ (x ∈ req ∧ x ∉ store)) ∧
    (∀ x ∈ req,
      (x ∈ (ZapSelectTx store req).2.1 ∧ x ∉ (ZapSelectTx store req).2.2) ∨
      (x ∉ (ZapSelectTx store req).2.1 ∧ x ∈ (ZapSelectTx store req).2.2)) ∧
    (∀ t, t ∈ (ZapSelectTx store req).1 ↔ (t ∈ store ∧ t ∉ req)) ∧
    (∀ x ∈ (ZapSelectTx store req).2.1, x ∉ (ZapSelectTx store req).1) := by
  refine ⟨fun x => zapSelectTx_removed_mem store req x,
    fun x => zapSelectTx_notfound_mem store req x hnd,
    fun x hx => ?_,
    fun t => zapSelectTx_store_mem store req t,
    fun x hx => ?_⟩
  · by_cases hs : x ∈ store
    · left
      refine ⟨(zapSelectTx_removed_mem store req x).mpr ⟨hx, hs⟩, fun hn => ?_⟩
      exact ((zapSelectTx_notfound_mem store req x hnd).mp hn).2 hs
    · right
      refine ⟨fun hr => hs ((zapSelectTx_removed_mem store req x).mp hr).2,
        (zapSelectTx_notfound_mem store req x hnd).mpr ⟨hx, hs⟩⟩
  · intro hmem
    have h1 := (zapSelectTx_removed_mem store req x).mp hx
    have h2 := (zapSelectTx_store_mem store req x).mp hmem
    exact h2.2 h1.1

/-- Witness for C7: zapping ids {2, 4} from a store {1, 2, 3} removes 2,
reports 4 not found, and leaves a store without 2. -/
theorem claim_C7_zap_select_witness :
    2 ∈ (ZapSelectTx [1, 2, 3] [2, 4]).2.1 ∧
    4 ∈ (ZapSelectTx [1, 2, 3] [2, 4]).2.2 ∧
    2 ∉ (ZapSelectTx [1, 2, 3] [2, 4]).1 ∧
    (3 ∈ (ZapSelectTx [1, 2, 3] [2, 4]).1) := by
  have h := claim_C7_zap_select [1, 2, 3] [2, 4] (by decide)
  refine ⟨(h.1 2).mpr (by decide), (h.2.1 4).mpr (by decide),
    ?_, (h.2.2.2.1 3).mpr (by decide)⟩
  exact h.2.2.2.2 2 ((h.1 2).mpr (by decide))

/-- Claim C8: running the recovery pass with the keys-only filter keeps a
raw pair iff `IsKeyType` holds of its type tag (a pure function of the tag
alone), and the backup is a verbatim selection of the input — every kept
pair appears unmodified, value octets included, in input order. -/
theorem claim_C8_recover_filter (records : List RawRecord) :
    (∀ r, r ∈ Recover RecoverKeysOnlyFilter records ↔
      (r ∈ records ∧ IsKeyType r.strType = true)) ∧
    List.Sublist (Recover RecoverKeysOnlyFilter records) records := by
  constructor
  · intro r
    induction records with
    | nil => simp [Recover]
    | cons x rest ih =>
      by_cases hx : RecoverKeysOnlyFilter x
      · simp only [Recover, if_pos hx, List.mem_cons]
        rw [ih]
        constructor
        · rintro (hr | ⟨hr, hk⟩)
          · exact ⟨Or.inl hr, hr ▸ hx⟩
          · exact ⟨Or.inr hr, hk⟩
        · rintro ⟨hr | hr, hk⟩
          · exact Or.inl hr
          · exact Or.inr ⟨hr, hk⟩
      · simp only [Recover, if_neg hx]
        rw [ih]
        constructor
        · rintro ⟨hr, hk⟩
          exact ⟨List.mem_cons_of_mem x hr, hk⟩
        · rintro ⟨hr, hk⟩
          rcases List.mem_cons.mp hr with hr | hr
          · exact absurd (hr ▸ hk) (by simpa [RecoverKeysOnlyFilter] using hx)
          · exact ⟨hr, hk⟩
  · induction records with
    | nil => simp [Recover]
    | cons x rest ih =>
      by_cases hx : RecoverKeysOnlyFilter x
      · simp only [Recover, if_pos hx]
        exact List.Sublist.cons₂ x ih
      · simp only [Recover, if_neg hx]
        exact List.Sublist.cons x ih

/-- Witness for C8 (the theorem itself is hypothesis-free; this exercises
it at a concrete store): of a key record, a transaction record and an
encrypted-key record, exactly the two key-tagged ones survive, verbatim
and in order. -/
theorem claim_C8_recover_filter_witness :
    (⟨"key", [1], [2, 3]⟩ : RawRecord) ∈
      Recover RecoverKeysOnlyFilter
        [⟨"key", [1], [2, 3]⟩, ⟨"tx", [4], [5]⟩, ⟨"ckey", [6], [7]⟩] ∧
    ¬ (⟨"tx", [4], [5]⟩ : RawRecord) ∈
      Recover RecoverKeysOnlyFilter
        [⟨"key", [1], [2, 3]⟩, ⟨"tx", [4], [5]⟩, ⟨"ckey", [6], [7]⟩] := by
  have h := claim_C8_recover_filter
    [⟨"key", [1], [2, 3]⟩, ⟨"tx", [4], [5]⟩, ⟨"ckey", [6], [7]⟩]
  refine ⟨(h.1 ⟨"key", [1], [2, 3]⟩).mpr (by decide), fun hm => ?_⟩
  have := (h.1 ⟨"tx", [4], [5]⟩).mp hm
  revert this
  decide

/-- Claim C10: default construction yields the current-version null
state — `CHDChain()` has version `CURRENT_VERSION` (= 2), both counters
zero and a null seed id; `CKeyMetadata(t)` has version `CURRENT_VERSION`
(= 12), creation time `t`, and every optional group at its default (empty
keypath, null seed id, cleared key origin, `has_key_origin = false`) —
exactly the state the version-gated decoder starts from. -/
theorem claim_C10_default_null_state :
    CHDChain.SetNull.nVersion = CHDChain.CURRENT_VERSION ∧
    CHDChain.CURRENT_VERSION = 2 ∧
    CHDChain.SetNull.nExternalChainCounter = 0 ∧
    CHDChain.SetNull.nInternalChainCounter = 0 ∧
    CHDChain.SetNull.seed_id = nullKeyID ∧
    CKeyMetadata.CURRENT_VERSION = 12 ∧
    (∀ t : Int,
      (CKeyMetadata.ofCreateTime t).nVersion = CKeyMetadata.CURRENT_VERSION ∧
      (CKeyMetadata.ofCreateTime t).nCreateTime = t ∧
      (CKeyMetadata.ofCreateTime t).hdKeypath = [] ∧
      (CKeyMetadata.ofCreateTime t).hd_seed_id = nullKeyID ∧
      (CKeyMetadata.ofCreateTime t).key_origin = KeyOriginInfo.clear ∧
      (CKeyMetadata.ofCreateTime t).has_key_origin = false) :=
  ⟨rfl, rfl, rfl, rfl, rfl, rfl,
    fun t => ⟨rfl, rfl, rfl, rfl, rfl, rfl⟩⟩

